import Mathlib

/-!
Verification of the coroutine runtime in `coroutines/coroutine.c` and
`coroutines/bitset.c`.

The C sources are shallowly embedded: machine integers become `Nat` or `Int`
with explicit reduction modulo powers of two where the C code can overflow,
the intrusive doubly linked live list becomes a `List Coroutine` in insertion
order, and the kernel-side state of an event descriptor (eventfd or kqueue
user event) is a boolean triggered flag.  The readiness poll is modelled by
an oracle (`PollOutcome`) supplying, per tick, either the poll error or the
set of wait descriptors that the kernel reports ready; readiness of event
descriptors is determined by the triggered flags.  Suspension primitives
(`setjmp`, `longjmp`, the stack switch) transfer control; their effect on the
modelled state is the field updates the C code performs around them, so each
suspension primitive becomes a state transformer on the machine.
-/

namespace Spec2Proof

/-- The Linux value of the poll input-readiness flag used by the runtime. -/
def POLLIN : Int := 1

/-- Lifecycle states from `coroutine.h`. -/
inductive CoroutineState where
  | kCoNew
  | kCoReady
  | kCoRunning
  | kCoYielded
  | kCoWaiting
  | kCoDead
deriving DecidableEq, Repr

open CoroutineState

/-- A `struct pollfd` as stored by the runtime (descriptor number and event
mask; the `revents` output field is modelled by the poll oracle instead of
being stored). -/
structure Pollfd where
  fd : Int
  events : Int
deriving DecidableEq, Repr

/-! ### BitSet (`bitset.c`)

`BitSet` stores 32-bit words; `capacity` is the word count, here the length
of the word list.  Words are `Nat` values kept below `2 ^ 32` by the
operations. -/

structure BitSet where
  value : List Nat
deriving DecidableEq, Repr

/-- `CalculateIndexes` from `bitset.c`: word index and bit index. -/
def CalculateIndexes (index : Nat) : Nat × Nat :=
  (index / 32, index % 32)

/-- `MakeRoomFor` from `bitset.c`: grow the word array (zero filled) so that
`(index + 32) / 32` words are available. -/
def MakeRoomFor (set : BitSet) (index : Nat) : BitSet :=
  let wordsRequired := (index + 32) / 32
  if set.value.length < wordsRequired then
    ⟨set.value ++ List.replicate (wordsRequired - set.value.length) 0⟩
  else
    set

/-- `BitSetInsert` from `bitset.c`. -/
def BitSetInsert (set : BitSet) (index : Nat) : BitSet :=
  let s := MakeRoomFor set index
  let word := index / 32
  let bit := index % 32
  ⟨s.value.set word ((s.value.getD word 0) ||| (1 <<< bit))⟩

/-- `BitSetContains` from `bitset.c`. -/
def BitSetContains (set : BitSet) (index : Nat) : Bool :=
  let word := index / 32
  let bit := index % 32
  if set.value.length ≤ word then
    false
  else
    (set.value.getD word 0) &&& (1 <<< bit) != 0

/-- `BitSetRemove` from `bitset.c`: `value[word] &= ~(1 << bit)` on a 32-bit
word, after making room. -/
def BitSetRemove (set : BitSet) (index : Nat) : BitSet :=
  let s := MakeRoomFor set index
  let word := index / 32
  let bit := index % 32
  ⟨s.value.set word ((s.value.getD word 0) &&& ((2 ^ 32 - 1) ^^^ (1 <<< bit)))⟩

/-- Search helper for the first clear bit, scanning indexes `i, i+1, ...`
for `fuel` steps. -/
def findFirstClearAux (set : BitSet) : Nat → Nat → Option Nat
  | _, 0 => none
  | i, fuel + 1 =>
    if BitSetContains set i then findFirstClearAux set (i + 1) fuel else some i

/-- Modelled from the spec: `BitSetFindFirstClear` is called by
`CoroutineMachineAllocateId` in `coroutine.c` but its definition is missing
from the repository sources.  Per the spec, identifier allocation returns the
first clear bit in the id-bitset and falls back to `next_coroutine_id` when
no clear bit is available; accordingly this returns the smallest index within
the allocated capacity whose bit is clear, and `none` (the C `(size_t)-1`)
when every bit within capacity is set. -/
def BitSetFindFirstClear (set : BitSet) : Option Nat :=
  findFirstClearAux set 0 (32 * set.value.length)

example : BitSetContains (BitSetInsert ⟨[]⟩ 5) 5 = true := by decide
example : BitSetContains (BitSetInsert ⟨[]⟩ 5) 4 = false := by decide
example : BitSetContains (BitSetRemove (BitSetInsert ⟨[]⟩ 33) 33) 33 = false := by decide
example : BitSetFindFirstClear ⟨[]⟩ = none := by decide
example : BitSetFindFirstClear (BitSetInsert ⟨[]⟩ 0) = some 1 := by decide

/-! ### Coroutine and CoroutineMachine records

Pointers to coroutines are modelled by their stable integer identifier; the
live list of the machine stores the coroutine records themselves, in
insertion order (the intrusive doubly linked list of the source).  The
per-tick scratch buffers of the machine (`pollfds`, `blocked_coroutines`)
are modelled as the per-tick values computed by the scheduler rather than
stored arrays.  Byte memory reachable through `result` and value pointers is
a list of bytes indexed by address. -/

structure Coroutine where
  id : Nat
  state : CoroutineState
  eventFd : Pollfd
  waitFd : Pollfd
  /-- Kernel-side state of the event descriptor: `true` after `TriggerEvent`
  until `ClearEvent`. -/
  eventTriggered : Bool
  lastTick : Nat
  /-- `caller` pointer, as the identifier of the calling coroutine. -/
  caller : Option Nat
  /-- `result` pointer: destination address for `YieldValue`, `none` = NULL. -/
  result : Option Nat
  resultSize : Nat
  stackSize : Nat
  needsFree : Bool
deriving DecidableEq, Repr

structure CoroutineMachine where
  coroutines : List Coroutine
  coroutineIds : BitSet
  nextCoroutineId : Nat
  running : Bool
  interruptFd : Pollfd
  /-- Kernel-side state of the interrupt descriptor. -/
  interruptTriggered : Bool
  tickCount : Nat
  /-- Byte memory used by `memcpy` in `CoroutineYieldValue`. -/
  mem : List Nat
deriving DecidableEq, Repr

/-- Look up a coroutine record by identifier (a pointer dereference in C). -/
def getCo (m : CoroutineMachine) (i : Nat) : Option Coroutine :=
  m.coroutines.find? (fun c => c.id == i)

/-- Update the record of the coroutine with identifier `i` in place. -/
def updateCo (m : CoroutineMachine) (i : Nat) (f : Coroutine → Coroutine) :
    CoroutineMachine :=
  { m with coroutines := m.coroutines.map (fun c => if c.id = i then f c else c) }

/-- `CoroutineTriggerEvent` / `TriggerEvent` on the event descriptor of
coroutine `i`. -/
def CoroutineTriggerEvent (m : CoroutineMachine) (i : Nat) : CoroutineMachine :=
  updateCo m i (fun c => { c with eventTriggered := true })

/-- `CoroutineClearEvent` / `ClearEvent` on the event descriptor of
coroutine `i`. -/
def CoroutineClearEvent (m : CoroutineMachine) (i : Nat) : CoroutineMachine :=
  updateCo m i (fun c => { c with eventTriggered := false })

/-- `memcpy(dest, src, n)` on the byte memory. -/
def memcpyBytes (mem : List Nat) (dest src n : Nat) : List Nat :=
  (List.range n).foldl (fun mm i => mm.set (dest + i) (mm.getD (src + i) 0)) mem

/-- `CoroutineStart` from `coroutine.c`: only a coroutine in state `kCoNew`
moves to `kCoReady`. -/
def CoroutineStart (c : Coroutine) : Coroutine :=
  if c.state = kCoNew then { c with state := kCoReady } else c

/-- `CoroutineIsAlive`: membership of the queried identifier in the machine
id-bitset. -/
def CoroutineIsAlive (m : CoroutineMachine) (queryId : Nat) : Bool :=
  BitSetContains m.coroutineIds queryId

/-- The suspension half of `CoroutineWait`: set state `kCoWaiting`, store
`(fd, event_mask)` in the wait descriptor, record `last_tick`, then transfer
control to the machine yield point (the `setjmp`/`longjmp` pair). -/
def CoroutineWait (m : CoroutineMachine) (i : Nat) (fd eventMask : Int) :
    CoroutineMachine :=
  updateCo m i (fun c =>
    { c with state := kCoWaiting, waitFd := ⟨fd, eventMask⟩,
             lastTick := m.tickCount })

/-- The code `CoroutineWait` runs when control returns after the resume
jump: clear the wait descriptor (`c->wait_fd.fd = -1`). -/
def CoroutineWaitReturn (m : CoroutineMachine) (i : Nat) : CoroutineMachine :=
  updateCo m i (fun c => { c with waitFd := { c.waitFd with fd := -1 } })

/-- `CoroutineYield`: state `kCoYielded`, record `last_tick`, signal the own
event descriptor, transfer to the yield point. -/
def CoroutineYield (m : CoroutineMachine) (i : Nat) : CoroutineMachine :=
  updateCo m i (fun c =>
    { c with state := kCoYielded, lastTick := m.tickCount,
             eventTriggered := true })

/-- `CoroutineYieldValue`: copy `result_size` bytes to the result slot when
one is registered, signal the caller event descriptor when a caller is
registered, then become `kCoYielded` without signalling the own event
descriptor. `valueAddr` is the address the `value` pointer holds. -/
def CoroutineYieldValue (m : CoroutineMachine) (i : Nat) (valueAddr : Nat) :
    CoroutineMachine :=
  match getCo m i with
  | none => m
  | some c =>
    let m1 :=
      match c.result with
      | some dest => { m with mem := memcpyBytes m.mem dest valueAddr c.resultSize }
      | none => m
    let m2 :=
      match c.caller with
      | some cal => CoroutineTriggerEvent m1 cal
      | none => m1
    updateCo m2 i (fun c =>
      { c with state := kCoYielded, lastTick := m.tickCount })

/-- The suspension half of `CoroutineCall`: register the caller and the
result slot on the callee, start a `kCoNew` callee or signal the event
descriptor of an already started callee, then yield. `resultAddr` is the
destination pointer (`none` = NULL). -/
def CoroutineCall (m : CoroutineMachine) (i calleeId : Nat)
    (resultAddr : Option Nat) (resultSize : Nat) : CoroutineMachine :=
  let m1 := updateCo m calleeId (fun k =>
    { k with caller := some i, result := resultAddr, resultSize := resultSize })
  let m2 :=
    match getCo m1 calleeId with
    | none => m1
    | some k =>
      if k.state = kCoNew then updateCo m1 calleeId CoroutineStart
      else CoroutineTriggerEvent m1 calleeId
  updateCo m2 i (fun c =>
    { c with state := kCoYielded, lastTick := m.tickCount })

/-- The code `CoroutineCall` runs when control returns after the resume
jump: unregister the caller and the result slot from the callee. -/
def CoroutineCallReturn (m : CoroutineMachine) (calleeId : Nat) :
    CoroutineMachine :=
  updateCo m calleeId (fun k => { k with caller := none, result := none })

/-- The state update `Resume` performs on a `kCoYielded` or `kCoWaiting`
coroutine before jumping to its resume point. -/
def ResumeTransition (m : CoroutineMachine) (i : Nat) : CoroutineMachine :=
  updateCo m i (fun c =>
    if c.state = kCoYielded ∨ c.state = kCoWaiting then
      { c with state := kCoRunning }
    else c)

/-- `CoroutineMachineStop`: clear the running flag and trigger the interrupt
descriptor. -/
def CoroutineMachineStop (m : CoroutineMachine) : CoroutineMachine :=
  { m with running := false, interruptTriggered := true }

/-- `CoroutineMachineAllocateId`: first clear bit of the id-bitset when one
exists, else the post-incremented `next_coroutine_id`; the returned
identifier is inserted before returning. -/
def CoroutineMachineAllocateId (m : CoroutineMachine) :
    Nat × CoroutineMachine :=
  match BitSetFindFirstClear m.coroutineIds with
  | some id =>
    (id, { m with coroutineIds := BitSetInsert m.coroutineIds id })
  | none =>
    (m.nextCoroutineId,
     { m with nextCoroutineId := m.nextCoroutineId + 1,
              coroutineIds := BitSetInsert m.coroutineIds m.nextCoroutineId })

/-- `CoroutineInitWithStackSize`: allocate an identifier, build the record
with state `kCoNew`, fresh event descriptor (`efd` is the descriptor number
the kernel returns), cleared wait descriptor, and append it to the machine
live list.  Returns the machine and the new identifier. -/
def CoroutineInitWithStackSize (m : CoroutineMachine) (efd : Int)
    (stackSize : Nat) : CoroutineMachine × Nat :=
  let (id, m1) := CoroutineMachineAllocateId m
  let c : Coroutine :=
    { id := id, state := kCoNew, eventFd := ⟨efd, POLLIN⟩,
      waitFd := ⟨-1, POLLIN⟩, eventTriggered := false, lastTick := 0,
      caller := none, result := none, resultSize := 0,
      stackSize := stackSize, needsFree := false }
  ({ m1 with coroutines := m1.coroutines ++ [c] }, id)

/-- The removal loop of `CoroutineMachineRemoveCoroutine`: delete the first
list element that is the given coroutine. -/
def removeFirst : List Coroutine → Nat → Option (List Coroutine)
  | [], _ => none
  | c :: rest, i =>
    if c.id = i then some rest else (removeFirst rest i).map (fun l => c :: l)

/-- `CoroutineMachineRemoveCoroutine`: when the coroutine is found in the
live list, delete it there and remove its identifier from the id-bitset;
otherwise do nothing. -/
def CoroutineMachineRemoveCoroutine (m : CoroutineMachine) (i : Nat) :
    CoroutineMachine :=
  match removeFirst m.coroutines i with
  | some cs =>
    { m with coroutines := cs, coroutineIds := BitSetRemove m.coroutineIds i }
  | none => m

/-! ### Scheduler (`GetRunnableCoroutine` and the run loop) -/

/-- `GetPollFd` from `coroutine.c`: the descriptor a coroutine contributes to
the per-tick poll set.  `kCoNew`, `kCoRunning` and `kCoDead` coroutines get
the static empty descriptor, which the build loop never appends. -/
def GetPollFd (c : Coroutine) : Pollfd :=
  match c.state with
  | kCoReady => c.eventFd
  | kCoYielded => c.eventFd
  | kCoWaiting => c.waitFd
  | kCoNew => ⟨-1, 0⟩
  | kCoRunning => ⟨-1, 0⟩
  | kCoDead => ⟨-1, 0⟩

/-- Does the build loop of `GetRunnableCoroutine` skip this coroutine? -/
def skipState (s : CoroutineState) : Bool :=
  s == kCoNew || s == kCoRunning || s == kCoDead

/-- The poll-set build loop of `GetRunnableCoroutine`: walk the live list;
for every coroutine whose state is not skipped, append its descriptor from
`GetPollFd` and the coroutine itself to the parallel blocked vector, and
signal the event descriptor of every `kCoReady` coroutine.  Returns the
updated live list, the appended descriptors, and the blocked vector. -/
def buildLoop : List Coroutine → List Coroutine × List Pollfd × List Coroutine
  | [] => ([], [], [])
  | c :: rest =>
    let r := buildLoop rest
    if skipState c.state then
      (c :: r.1, r.2.1, r.2.2)
    else
      let c' := if c.state = kCoReady then { c with eventTriggered := true } else c
      (c' :: r.1, GetPollFd c :: r.2.1, c' :: r.2.2)

/-- The full per-tick poll set: interrupt descriptor at index 0, then the
descriptors appended by the build loop. -/
def MachinePollFds (m : CoroutineMachine) : List Pollfd :=
  m.interruptFd :: (buildLoop m.coroutines).2.1

/-- One poll outcome, supplied by an oracle per tick: either `poll` failed
with the given errno (`num_ready = -1`), or it returned and `waitReady`
lists the identifiers of the waiting coroutines whose wait descriptor the
kernel reports ready.  Readiness of event descriptors (including the
interrupt descriptor) is determined by their triggered flags. -/
inductive PollOutcome where
  | pollErr (errno : Int)
  | pollOk (waitReady : List Nat)
deriving DecidableEq, Repr

/-- Readiness (`revents != 0`) of the descriptor a blocked coroutine
contributed, evaluated after the build loop. -/
def pollReady (waitReady : List Nat) (c : Coroutine) : Bool :=
  match c.state with
  | kCoReady => c.eventTriggered
  | kCoYielded => c.eventTriggered
  | kCoWaiting => waitReady.contains c.id
  | kCoNew => false
  | kCoRunning => false
  | kCoDead => false

/-- Subtraction of `uint64_t` values, wrapping modulo `2 ^ 64`. -/
def sub64 (x y : Nat) : Nat :=
  ((x % 2 ^ 64) + (2 ^ 64 - y % 2 ^ 64)) % 2 ^ 64

/-- The C cast `(int)` applied to a `uint64_t` value: keep the low 32 bits
and interpret them as a signed 32-bit integer. -/
def toInt32 (n : Nat) : Int :=
  if n % 2 ^ 32 < 2 ^ 31 then ((n % 2 ^ 32 : Nat) : Int)
  else ((n % 2 ^ 32 : Nat) : Int) - 2 ^ 32

/-- `CompareTick` from `coroutine.c`: compare two coroutines by staleness
(`tick_count - last_tick` in `uint64_t` arithmetic), returning
`(int)(t2 - t1)`.  `tick` is the machine tick count at sort time. -/
def CompareTick (tick : Nat) (a b : Coroutine) : Int :=
  let t1 := sub64 tick a.lastTick
  let t2 := sub64 tick b.lastTick
  toInt32 (sub64 t2 t1)

/-- Insert into a sorted list, in front of the first element `y` with
`le x y`. -/
def insertSorted (le : α → α → Bool) (x : α) : List α → List α
  | [] => [x]
  | y :: ys => if le x y then x :: y :: ys else y :: insertSorted le x ys

/-- Models the libc `qsort` call on the runnable array, as one admissible
refinement: an insertion sort.  ISO C only guarantees that the output is a
permutation of the input ordered consistently with the comparator; the
relative order of elements the comparator reports equal is unspecified and
differs between libcs.  Theorems about the chosen coroutine therefore rely
only on those guaranteed properties (established by `mem_qsortStable`,
`mem_qsortStable_of_mem` and `qsortStable_keySorted` below); the particular
tie order this refinement produces is not treated as a property of the
program. -/
def qsortStable (le : α → α → Bool) : List α → List α
  | [] => []
  | x :: xs => insertSorted le x (qsortStable le xs)

/-- The machine after the build loop wrote back the live list (the
signalling of `kCoReady` event descriptors). -/
def builtMachine (m : CoroutineMachine) : CoroutineMachine :=
  { m with coroutines := (buildLoop m.coroutines).1 }

/-- The runnable set of a tick: the blocked coroutines whose descriptor the
poll reported ready, in poll-set order (which is live-list order). -/
def runnablesOf (m : CoroutineMachine) (waitReady : List Nat) : List Coroutine :=
  (buildLoop m.coroutines).2.2.filter (pollReady waitReady)

/-- The machine state after a successful poll: build loop written back, tick
count incremented, a fired interrupt descriptor cleared. -/
def postPollMachine (m : CoroutineMachine) : CoroutineMachine :=
  let m2 := { builtMachine m with tickCount := m.tickCount + 1 }
  if m2.interruptTriggered then { m2 with interruptTriggered := false } else m2

/-- `GetRunnableCoroutine` from `coroutine.c`, for one poll outcome:
build the poll set (signalling `kCoReady` coroutines), poll, and on success
advance the tick, clear a fired interrupt, stop if asked to, collect the
ready blocked coroutines in poll-set order, sort them with `CompareTick`
and return the first, clearing its event descriptor. -/
def GetRunnableCoroutine (m : CoroutineMachine) (o : PollOutcome) :
    Option Nat × CoroutineMachine :=
  match o with
  | .pollErr _ => (none, builtMachine m)
  | .pollOk waitReady =>
    let runnables := runnablesOf m waitReady
    let numReady :=
      (if (builtMachine m).interruptTriggered then 1 else 0) + runnables.length
    if numReady = 0 then (none, builtMachine m)
    else
      let m3 := postPollMachine m
      if m3.running = false then (none, m3)
      else if runnables.length = 0 then (none, m3)
      else
        match qsortStable (fun a b => CompareTick (m.tickCount + 1) a b ≤ 0)
            runnables with
        | [] => (none, m3)
        | chosen :: _ => (some chosen.id, CoroutineClearEvent m3 chosen.id)

/-- `GetRunnableCoroutine` against a stream of poll outcomes: the source
performs exactly one `poll` call per invocation, consuming one outcome.  An
empty stream stands for a poll that never returns. -/
def GetRunnableFromStream (m : CoroutineMachine) :
    List PollOutcome → Option Nat × CoroutineMachine × List PollOutcome
  | [] => (none, m, [])
  | o :: rest =>
    let (r, m') := GetRunnableCoroutine m o
    (r, m', rest)

/-- How `Resume` hands control back to the run loop: the resumed coroutine
either suspends (long-jumping to the machine yield point) or its task
function returns, making `Resume` itself return after removing the dead
coroutine. -/
inductive ResumeOutcome where
  | suspended (m : CoroutineMachine)
  | returned (m : CoroutineMachine)

/-- `CoroutineMachineRun` from `coroutine.c`, as a fueled loop.  The flag
distinguishes the two points the C control flow can be at: `true` is the
top of the `while` loop (running flag and live-set checks), `false` is the
landing point of `setjmp(m->yield)`, reached directly when a coroutine
suspends, which proceeds straight to `GetRunnableCoroutine`.  `resumeF`
abstracts the effect of `Resume` (the resumed task function may perform
arbitrary operations); `outs` is the poll oracle stream.  `none` means the
fuel or the oracle ran out while the loop was still going. -/
def runLoop (resumeF : Nat → CoroutineMachine → ResumeOutcome) :
    Nat → Bool → CoroutineMachine → List PollOutcome →
    Option CoroutineMachine
  | 0, _, _, _ => none
  | fuel + 1, true, m, outs =>
    if m.running = false then some m
    else if m.coroutines.length = 0 then some m
    else runLoop resumeF fuel false m outs
  | _ + 1, false, _, [] => none
  | fuel + 1, false, m, o :: rest =>
    match GetRunnableCoroutine m o with
    | (none, m1) => runLoop resumeF fuel true m1 rest
    | (some i, m1) =>
      match resumeF i m1 with
      | .suspended m2 => runLoop resumeF fuel false m2 rest
      | .returned m2 => runLoop resumeF fuel true m2 rest

/-- `CoroutineMachineRun`: set the running flag and enter the loop at the
top. -/
def CoroutineMachineRun (resumeF : Nat → CoroutineMachine → ResumeOutcome)
    (fuel : Nat) (m : CoroutineMachine) (outs : List PollOutcome) :
    Option CoroutineMachine :=
  runLoop resumeF fuel true { m with running := true } outs

/-- Staleness of a coroutine at tick `tick`: `tick_count - last_tick`, the
fairness key of the scheduler. -/
def Staleness (tick : Nat) (c : Coroutine) : Nat :=
  tick - c.lastTick

/-! ### Concrete machines used by witnesses and counterexamples -/

def cW0 : Coroutine :=
  { id := 0, state := kCoYielded, eventFd := ⟨3, POLLIN⟩,
    waitFd := ⟨-1, POLLIN⟩, eventTriggered := true, lastTick := 2,
    caller := none, result := none, resultSize := 0, stackSize := 8192,
    needsFree := false }

def cW1 : Coroutine :=
  { cW0 with id := 1, eventFd := ⟨4, POLLIN⟩, lastTick := 0 }

def mW : CoroutineMachine :=
  { coroutines := [cW0, cW1],
    coroutineIds := BitSetInsert (BitSetInsert ⟨[]⟩ 0) 1,
    nextCoroutineId := 2, running := true, interruptFd := ⟨5, POLLIN⟩,
    interruptTriggered := false, tickCount := 4, mem := [] }

/-- First coroutine of the fairness counterexample: suspended at the current
tick, staleness 1 at selection time. -/
def cCexA : Coroutine := { cW0 with lastTick := 2 ^ 31 + 1 }

/-- Second coroutine of the fairness counterexample: never rescheduled since
tick 0, staleness `2 ^ 31 + 2` at selection time.  The staleness difference
`2 ^ 31 + 1` lies in `(2 ^ 31, 2 ^ 32)`, where the `(int)` truncation in
`CompareTick` gives a comparator that is consistent in both directions but
orders the less stale coroutine strictly first, so every sort respecting
the comparator misorders this pair. -/
def cCexB : Coroutine := { cW1 with lastTick := 0 }

def mCex : CoroutineMachine :=
  { mW with coroutines := [cCexA, cCexB], tickCount := 2 ^ 31 + 1 }

/-- A freshly started coroutine, for the poll-error counterexample. -/
def cRdy : Coroutine :=
  { cW0 with id := 7, state := kCoReady, eventTriggered := false, lastTick := 0 }

def mRdy : CoroutineMachine :=
  { mW with coroutines := [cRdy], tickCount := 0 }

/-- Callee record for the rendezvous witness: coroutine 1 is being called by
coroutine 0, with a two byte result slot at address 0. -/
def cCallee : Coroutine :=
  { cW1 with
    state := kCoRunning,
    caller := some 0,
    result := some 0,
    resultSize := 2 }

/-- Caller record for the rendezvous witness: suspended in `CoroutineCall`,
event descriptor not signalled. -/
def cCaller : Coroutine := { cW0 with eventTriggered := false }

def mCall : CoroutineMachine :=
  { mW with coroutines := [cCaller, cCallee], mem := [9, 9, 5, 6] }

/-- A waiting coroutine, for the wait-return witness. -/
def cWaiting : Coroutine :=
  { cW0 with state := kCoWaiting, waitFd := ⟨9, 1⟩ }

def mWaiting : CoroutineMachine :=
  { mW with coroutines := [cWaiting, cW1] }

/-! ### Helper lemmas -/

theorem find?_map_update (l : List Coroutine) (i : Nat)
    (f : Coroutine → Coroutine) (hf : ∀ c, (f c).id = c.id) :
    (l.map (fun c => if c.id = i then f c else c)).find? (fun c => c.id == i) =
      (l.find? (fun c => c.id == i)).map f := by
  induction l with
  | nil => rfl
  | cons c rest ih =>
    by_cases h : c.id = i
    · simp [List.find?_cons, h, hf]
    · simp [List.find?_cons, h, ih]

theorem getCo_updateCo_self (m : CoroutineMachine) (i : Nat)
    (f : Coroutine → Coroutine) (hf : ∀ c, (f c).id = c.id) :
    getCo (updateCo m i f) i = (getCo m i).map f := by
  simpa [getCo, updateCo] using find?_map_update m.coroutines i f hf

theorem find?_map_update_ne (l : List Coroutine) (i j : Nat)
    (f : Coroutine → Coroutine) (hf : ∀ c, (f c).id = c.id) (hij : i ≠ j) :
    (l.map (fun c => if c.id = i then f c else c)).find? (fun c => c.id == j) =
      l.find? (fun c => c.id == j) := by
  induction l with
  | nil => rfl
  | cons c rest ih =>
    simp only [List.map_cons]
    by_cases h : c.id = i
    · have h2 : ¬ ((fun d : Coroutine => d.id == j) (if c.id = i then f c else c) = true) := by
        simp [if_pos h, hf, h, hij]
      have h3 : ¬ ((fun d : Coroutine => d.id == j) c = true) := by simp [h, hij]
      rw [@List.find?_cons_of_neg _ (fun d : Coroutine => d.id == j) _ _ h2,
          @List.find?_cons_of_neg _ (fun d : Coroutine => d.id == j) _ _ h3]
      exact ih
    · by_cases h4 : c.id = j
      · have h2 : ((fun d : Coroutine => d.id == j) (if c.id = i then f c else c) = true) := by
          rw [if_neg h]
          simp [h4]
        have h3 : ((fun d : Coroutine => d.id == j) c = true) := by simp [h4]
        rw [@List.find?_cons_of_pos _ (fun d : Coroutine => d.id == j) _ _ h2,
            @List.find?_cons_of_pos _ (fun d : Coroutine => d.id == j) _ _ h3]
        simp [if_neg h]
      · have h2 : ¬ ((fun d : Coroutine => d.id == j) (if c.id = i then f c else c) = true) := by
          simp [if_neg h, h4]
        have h3 : ¬ ((fun d : Coroutine => d.id == j) c = true) := by simp [h4]
        rw [@List.find?_cons_of_neg _ (fun d : Coroutine => d.id == j) _ _ h2,
            @List.find?_cons_of_neg _ (fun d : Coroutine => d.id == j) _ _ h3]
        exact ih

theorem getCo_updateCo_ne (m : CoroutineMachine) (i j : Nat)
    (f : Coroutine → Coroutine) (hf : ∀ c, (f c).id = c.id) (hij : i ≠ j) :
    getCo (updateCo m i f) j = getCo m j := by
  simpa [getCo, updateCo] using find?_map_update_ne m.coroutines i j f hf hij

theorem clearEvent_clears (m : CoroutineMachine) (i : Nat) :
    ∀ k ∈ (CoroutineClearEvent m i).coroutines, k.id = i →
      k.eventTriggered = false := by
  intro k hk hid
  simp only [CoroutineClearEvent, updateCo, List.mem_map] at hk
  obtain ⟨c, _, hc⟩ := hk
  by_cases h : c.id = i
  · simp [h] at hc
    rw [← hc]
  · simp [h] at hc
    rw [← hc] at hid
    exact absurd hid h

theorem mem_insertSorted {α : Type} (le : α → α → Bool) (x a : α) :
    ∀ l : List α, a ∈ insertSorted le x l → a = x ∨ a ∈ l := by
  intro l
  induction l with
  | nil => simp [insertSorted]
  | cons y ys ih =>
    simp only [insertSorted]
    split
    · intro h
      rcases List.mem_cons.mp h with h1 | h1
      · exact Or.inl h1
      · exact Or.inr h1
    · intro h
      rcases List.mem_cons.mp h with h1 | h1
      · exact Or.inr (by simp [h1])
      · rcases ih h1 with h2 | h2
        · exact Or.inl h2
        · exact Or.inr (by simp [h2])

theorem mem_qsortStable {α : Type} (le : α → α → Bool) (a : α) :
    ∀ l : List α, a ∈ qsortStable le l → a ∈ l := by
  intro l
  induction l with
  | nil => simp [qsortStable]
  | cons x xs ih =>
    intro h
    rcases mem_insertSorted le x a _ h with h1 | h1
    · simp [h1]
    · exact List.mem_cons.mpr (Or.inr (ih h1))

/-- The record a coroutine carries after the build loop visited it. -/
def buildVisit (c : Coroutine) : Coroutine :=
  if c.state = kCoReady then { c with eventTriggered := true } else c

theorem buildLoop_blocked_mem (l : List Coroutine) :
    ∀ c' ∈ (buildLoop l).2.2,
      ∃ c ∈ l, skipState c.state = false ∧ c' = buildVisit c := by
  induction l with
  | nil => simp [buildLoop]
  | cons c rest ih =>
    intro c' hc'
    simp only [buildLoop] at hc'
    by_cases h : skipState c.state
    · simp only [h, if_true] at hc'
      obtain ⟨d, hd, hval⟩ := ih c' hc'
      exact ⟨d, List.mem_cons.mpr (Or.inr hd), hval⟩
    · simp only [h, if_false] at hc'
      rcases List.mem_cons.mp hc' with h1 | h1
      · exact ⟨c, List.mem_cons.mpr (Or.inl rfl), by simp [h], by simp [h1, buildVisit]⟩
      · obtain ⟨d, hd, hval⟩ := ih c' h1
        exact ⟨d, List.mem_cons.mpr (Or.inr hd), hval⟩

theorem makeRoomFor_length (s : BitSet) (i : Nat) :
    i / 32 + 1 ≤ (MakeRoomFor s i).value.length := by
  simp only [MakeRoomFor]
  split
  · simp only [List.length_append, List.length_replicate]
    omega
  · omega

theorem getD_set_self (l : List Nat) (w : Nat) (v : Nat) (h : w < l.length) :
    (l.set w v).getD w 0 = v := by
  rw [List.getD_eq_getElem?_getD, List.getElem?_set_self h]
  rfl

theorem bitSetContains_insert_self (s : BitSet) (i : Nat) :
    BitSetContains (BitSetInsert s i) i = true := by
  have hlen := makeRoomFor_length s i
  have hbit : i % 32 < 32 := Nat.mod_lt _ (by omega)
  simp only [BitSetInsert, BitSetContains, List.length_set]
  rw [if_neg (by omega)]
  rw [getD_set_self _ _ _ (by omega)]
  rw [Nat.one_shiftLeft]
  have : (((MakeRoomFor s i).value.getD (i / 32) 0 ||| 2 ^ (i % 32)) &&&
      2 ^ (i % 32)) ≠ 0 := by
    rw [Nat.and_two_pow, Nat.testBit_or, Nat.testBit_two_pow_self]
    simp
  simpa using this

theorem bitSetContains_remove_self (s : BitSet) (i : Nat) :
    BitSetContains (BitSetRemove s i) i = false := by
  have hlen := makeRoomFor_length s i
  have hbit : i % 32 < 32 := Nat.mod_lt _ (by omega)
  simp only [BitSetRemove, BitSetContains, List.length_set]
  rw [if_neg (by omega)]
  rw [getD_set_self _ _ _ (by omega)]
  rw [Nat.one_shiftLeft]
  have : (((MakeRoomFor s i).value.getD (i / 32) 0 &&&
      ((2 ^ 32 - 1) ^^^ 2 ^ (i % 32))) &&& 2 ^ (i % 32)) = 0 := by
    rw [Nat.and_two_pow, Nat.testBit_and, Nat.testBit_xor,
        Nat.testBit_two_pow_self, Nat.testBit_two_pow_sub_one]
    simp [hbit]
  simpa using this

theorem bitSetRemove_length (s : BitSet) (i : Nat) :
    i / 32 + 1 ≤ (BitSetRemove s i).value.length := by
  simpa [BitSetRemove] using makeRoomFor_length s i

theorem findFirstClearAux_some (s : BitSet) :
    ∀ fuel start i, findFirstClearAux s start fuel = some i →
      BitSetContains s i = false ∧ start ≤ i ∧ i < start + fuel ∧
      ∀ j, start ≤ j → j < i → BitSetContains s j = true := by
  intro fuel
  induction fuel with
  | zero => intro start i h; simp [findFirstClearAux] at h
  | succ n ih =>
    intro start i h
    simp only [findFirstClearAux] at h
    by_cases hc : BitSetContains s start
    · rw [if_pos hc] at h
      obtain ⟨h1, h2, h3, h4⟩ := ih (start + 1) i h
      refine ⟨h1, by omega, by omega, ?_⟩
      intro j hj1 hj2
      rcases Nat.eq_or_lt_of_le hj1 with he | hl
      · rw [← he]; exact hc
      · exact h4 j (by omega) hj2
    · rw [if_neg hc] at h
      obtain rfl := Option.some.inj h
      refine ⟨by simpa using hc, le_refl _, by omega, ?_⟩
      intro j hj1 hj2
      omega

theorem findFirstClearAux_none (s : BitSet) :
    ∀ fuel start, findFirstClearAux s start fuel = none →
      ∀ j, start ≤ j → j < start + fuel → BitSetContains s j = true := by
  intro fuel
  induction fuel with
  | zero => intro start _ j h1 h2; omega
  | succ n ih =>
    intro start h j hj1 hj2
    simp only [findFirstClearAux] at h
    by_cases hc : BitSetContains s start
    · rw [if_pos hc] at h
      rcases Nat.eq_or_lt_of_le hj1 with he | hl
      · rw [← he]; exact hc
      · exact ih (start + 1) h j (by omega) (by omega)
    · rw [if_neg hc] at h
      exact absurd h (by simp)

theorem sub64_of_le (x y : Nat) (hyx : y ≤ x) (hx : x < 2 ^ 64) :
    sub64 x y = x - y := by
  have h64 : (2 : Nat) ^ 64 = 18446744073709551616 := by norm_num
  simp only [sub64, h64]
  simp only [h64] at hx
  omega

theorem sub64_toInt32_le_zero (t1 t2 : Nat) (h1 : t1 < 2 ^ 64)
    (h2 : t2 < 2 ^ 64) (hab : t2 - t1 < 2 ^ 31) (hba : t1 - t2 < 2 ^ 31) :
    (toInt32 (sub64 t2 t1) ≤ 0 ↔ t2 ≤ t1) := by
  have h64 : (2 : Nat) ^ 64 = 18446744073709551616 := by norm_num
  have h32 : (2 : Nat) ^ 32 = 4294967296 := by norm_num
  have h31 : (2 : Nat) ^ 31 = 2147483648 := by norm_num
  rw [h64] at h1 h2
  rw [h31] at hab hba
  simp only [toInt32, sub64, h64, h32, h31]
  split
  · omega
  · omega

/-- Faithfulness window of `CompareTick`: when both stalenesses are genuine
(`last_tick` at most the tick count, which fits in 64 bits) and they differ
by less than `2 ^ 31`, the comparator orders by staleness descending. -/
theorem compareTick_le_iff (T : Nat) (a b : Coroutine)
    (ha : a.lastTick ≤ T) (hb : b.lastTick ≤ T) (hT : T < 2 ^ 64)
    (hab : Staleness T a - Staleness T b < 2 ^ 31)
    (hba : Staleness T b - Staleness T a < 2 ^ 31) :
    (CompareTick T a b ≤ 0 ↔ Staleness T b ≤ Staleness T a) := by
  have h1 : sub64 T a.lastTick = T - a.lastTick := sub64_of_le _ _ ha hT
  have h2 : sub64 T b.lastTick = T - b.lastTick := sub64_of_le _ _ hb hT
  simp only [CompareTick, h1, h2]
  exact sub64_toInt32_le_zero (T - a.lastTick) (T - b.lastTick)
    (lt_of_le_of_lt (Nat.sub_le _ _) hT)
    (lt_of_le_of_lt (Nat.sub_le _ _) hT) hba hab

theorem self_mem_insertSorted {α : Type} (le : α → α → Bool) (x : α) :
    ∀ l : List α, x ∈ insertSorted le x l := by
  intro l
  induction l with
  | nil => simp [insertSorted]
  | cons y ys ih =>
    simp only [insertSorted]
    split
    · exact List.mem_cons_self _ _
    · exact List.mem_cons_of_mem _ ih

theorem mem_insertSorted_of_mem {α : Type} (le : α → α → Bool) (x a : α) :
    ∀ l : List α, a ∈ l → a ∈ insertSorted le x l := by
  intro l
  induction l with
  | nil => simp
  | cons y ys ih =>
    intro ha
    simp only [insertSorted]
    split
    · exact List.mem_cons_of_mem _ ha
    · rcases List.mem_cons.mp ha with h1 | h1
      · rw [h1]
        exact List.mem_cons_self _ _
      · exact List.mem_cons_of_mem _ (ih h1)

/-- Every element of the input appears in the sort output; with
`mem_qsortStable` this says the output is, as a set, exactly the input —
one of the two properties any conforming `qsort` guarantees. -/
theorem mem_qsortStable_of_mem {α : Type} (le : α → α → Bool) (a : α) :
    ∀ l : List α, a ∈ l → a ∈ qsortStable le l := by
  intro l
  induction l with
  | nil => simp
  | cons x xs ih =>
    intro ha
    simp only [qsortStable]
    rcases List.mem_cons.mp ha with h1 | h1
    · rw [h1]
      exact self_mem_insertSorted le x _
    · exact mem_insertSorted_of_mem le x a _ (ih h1)

/-- Descending order on a key: each element is followed only by elements of
smaller or equal key. -/
def KeySorted {α : Type} (k : α → Nat) (l : List α) : Prop :=
  l.Chain' (fun a b => k b ≤ k a)

theorem insertSorted_head_cases {α : Type} (le : α → α → Bool) (x : α)
    (l : List α) :
    (insertSorted le x l).head? = some x ∨
      (insertSorted le x l).head? = l.head? := by
  cases l with
  | nil => exact Or.inl rfl
  | cons y ys =>
    simp only [insertSorted]
    split
    · exact Or.inl rfl
    · exact Or.inr rfl

theorem insertSorted_keySorted {α : Type} (k : α → Nat) (le : α → α → Bool)
    (x : α) :
    ∀ l : List α, (∀ b ∈ l, (le x b = true ↔ k b ≤ k x)) → KeySorted k l →
      KeySorted k (insertSorted le x l) := by
  intro l
  induction l with
  | nil =>
    intro _ _
    simp [insertSorted, KeySorted]
  | cons y ys ih =>
    intro hx hs
    have hxy := hx y (List.mem_cons_self _ _)
    simp only [insertSorted]
    split
    · have h1 : k y ≤ k x := hxy.mp (by assumption)
      exact List.Chain'.cons h1 hs
    · have h2 : k x ≤ k y := by
        have hny : ¬ (k y ≤ k x) := fun hc => by
          have := hxy.mpr hc
          simp_all
        omega
      have hs' : KeySorted k ys := hs.tail
      have hx' : ∀ b ∈ ys, (le x b = true ↔ k b ≤ k x) :=
        fun b hb => hx b (List.mem_cons_of_mem _ hb)
      have hins := ih hx' hs'
      rw [KeySorted, List.chain'_cons']
      refine ⟨?_, hins⟩
      intro z hz
      rcases insertSorted_head_cases le x ys with hcase | hcase
      · rw [hcase] at hz
        have hzx : z = x := by simpa using hz.symm
        rw [hzx]
        exact h2
      · rw [hcase] at hz
        have := List.chain'_cons'.mp hs
        exact this.1 z hz

/-- The sort output is ordered descending on the key whenever the comparator
agrees with the key on the input elements — the other property any
conforming `qsort` guarantees. -/
theorem qsortStable_keySorted {α : Type} (k : α → Nat) (le : α → α → Bool) :
    ∀ l : List α, (∀ a ∈ l, ∀ b ∈ l, (le a b = true ↔ k b ≤ k a)) →
      KeySorted k (qsortStable le l) := by
  intro l
  induction l with
  | nil => simp [qsortStable, KeySorted]
  | cons x xs ih =>
    intro hle
    simp only [qsortStable]
    refine insertSorted_keySorted k le x _ ?_ ?_
    · intro b hb
      exact hle x (List.mem_cons_self _ _) b
        (List.mem_cons_of_mem _ (mem_qsortStable le b xs hb))
    · exact ih fun a ha b hb =>
        hle a (List.mem_cons_of_mem _ ha) b (List.mem_cons_of_mem _ hb)

/-- In a list ordered descending on a key, the head attains the maximal
key.  Together with the two membership lemmas this pins down everything the
scheduler can rely on from the `qsort` call: whichever comparator-respecting
permutation the libc produces, its first element is key-maximal. -/
theorem keySorted_head_max {α : Type} (k : α → Nat) (c : α) :
    ∀ t : List α, KeySorted k (c :: t) → ∀ x ∈ c :: t, k x ≤ k c := by
  intro t
  induction t generalizing c with
  | nil =>
    intro _ x hx
    rcases List.mem_cons.mp hx with h1 | h1
    · rw [h1]
    · simp at h1
  | cons y ys ih =>
    intro hs x hx
    have h1 : k y ≤ k c := (List.chain'_cons.mp hs).1
    have h2 : KeySorted k (y :: ys) := (List.chain'_cons.mp hs).2
    rcases List.mem_cons.mp hx with h3 | h3
    · rw [h3]
    · exact le_trans (ih y h2 x h3) h1

theorem buildLoop_fds (l : List Coroutine) :
    (buildLoop l).2.1 =
      (l.filter (fun c => !skipState c.state)).map GetPollFd := by
  induction l with
  | nil => simp [buildLoop]
  | cons c rest ih =>
    simp only [buildLoop]
    by_cases h : skipState c.state
    · simp [h, ih]
    · simp [h, ih]

theorem getD_set_ne (l : List Nat) (i j : Nat) (v : Nat) (h : i ≠ j) :
    (l.set i v).getD j 0 = l.getD j 0 := by
  rw [List.getD_eq_getElem?_getD, List.getElem?_set_ne h,
      ← List.getD_eq_getElem?_getD]

theorem memcpyBytes_succ (mem : List Nat) (dest src n : Nat) :
    memcpyBytes mem dest src (n + 1) =
      (memcpyBytes mem dest src n).set (dest + n)
        ((memcpyBytes mem dest src n).getD (src + n) 0) := by
  simp [memcpyBytes, List.range_succ]

theorem memcpyBytes_length (mem : List Nat) (dest src : Nat) :
    ∀ n, (memcpyBytes mem dest src n).length = mem.length := by
  intro n
  induction n with
  | zero => rfl
  | succ n ih => rw [memcpyBytes_succ, List.length_set, ih]

theorem memcpyBytes_getD_out (mem : List Nat) (dest src : Nat) :
    ∀ n p, (p < dest ∨ dest + n ≤ p) →
      (memcpyBytes mem dest src n).getD p 0 = mem.getD p 0 := by
  intro n
  induction n with
  | zero => intro p _; rfl
  | succ n ih =>
    intro p hp
    rw [memcpyBytes_succ, getD_set_ne _ _ _ _ (by omega)]
    exact ih p (by omega)

/-- A disjoint `memcpy` copies exactly the source bytes into the
destination range. -/
theorem memcpyBytes_copies (mem : List Nat) (dest src : Nat) :
    ∀ n i, i < n → dest + n ≤ mem.length →
      (src + n ≤ dest ∨ dest + n ≤ src) →
      (memcpyBytes mem dest src n).getD (dest + i) 0 = mem.getD (src + i) 0 := by
  intro n
  induction n with
  | zero => intro i hi; omega
  | succ n ih =>
    intro i hi hlen hdisj
    rw [memcpyBytes_succ]
    by_cases hin : i = n
    · subst hin
      rw [getD_set_self _ _ _ (by rw [memcpyBytes_length]; omega)]
      exact memcpyBytes_getD_out mem dest src i (src + i) (by omega)
    · rw [getD_set_ne _ _ _ _ (by omega)]
      exact ih i (by omega) (by omega) (by omega)

theorem builtMachine_running (m : CoroutineMachine) :
    (builtMachine m).running = m.running := rfl

theorem postPoll_running (m : CoroutineMachine) :
    (postPollMachine m).running = m.running := by
  simp only [postPollMachine]
  split <;> rfl

theorem getCo_mem_update (m : CoroutineMachine) (x : List Nat) (i : Nat) :
    getCo { m with mem := x } i = getCo m i := rfl

theorem skipState_iff (s : CoroutineState) :
    (!skipState s) = decide (s ≠ kCoNew ∧ s ≠ kCoRunning ∧ s ≠ kCoDead) := by
  cases s <;> rfl

/-! ### The claims -/

/-- Claim C10: for every coroutine whose state is not `kCoNew`,
`CoroutineStart` is a no-op leaving the whole record (state and every other
field) unchanged, so starting a Dead or already started coroutine neither
fails nor changes it; only a `kCoNew` coroutine transitions, to `kCoReady`. -/
theorem claim_C10_start_frame (c : Coroutine) :
    (c.state ≠ kCoNew → CoroutineStart c = c) ∧
    (c.state = kCoNew → CoroutineStart c = { c with state := kCoReady }) := by
  constructor
  · intro h
    simp [CoroutineStart, h]
  · intro h
    simp [CoroutineStart, h]

theorem claim_C10_start_frame_witness :
    CoroutineStart cW0 = cW0 ∧
    CoroutineStart { cW0 with state := kCoNew } =
      { { cW0 with state := kCoNew } with state := kCoReady } :=
  ⟨(claim_C10_start_frame cW0).1 (by decide),
   (claim_C10_start_frame { cW0 with state := kCoNew }).2 (by decide)⟩

/-- Claim C2: the per-tick poll set has the machine interrupt descriptor at
index 0, followed by exactly one descriptor for each live coroutine whose
state is neither `kCoNew` nor `kCoRunning` nor `kCoDead`, in live-list
order; that descriptor is the event descriptor for `kCoReady` and
`kCoYielded` coroutines and the wait descriptor for `kCoWaiting` ones, and
skipped coroutines contribute nothing. -/
theorem claim_C2_pollset (m : CoroutineMachine) :
    MachinePollFds m =
      m.interruptFd ::
        (m.coroutines.filter (fun c =>
          decide (c.state ≠ kCoNew ∧ c.state ≠ kCoRunning ∧ c.state ≠ kCoDead))).map
          GetPollFd ∧
    (∀ c : Coroutine, c.state = kCoReady ∨ c.state = kCoYielded →
      GetPollFd c = c.eventFd) ∧
    (∀ c : Coroutine, c.state = kCoWaiting → GetPollFd c = c.waitFd) := by
  refine ⟨?_, ?_, ?_⟩
  · have hfun : (fun c : Coroutine => !skipState c.state) =
        (fun c : Coroutine =>
          decide (c.state ≠ kCoNew ∧ c.state ≠ kCoRunning ∧ c.state ≠ kCoDead)) :=
      funext fun c => skipState_iff c.state
    rw [MachinePollFds, buildLoop_fds, hfun]
  · intro c h
    rcases h with h | h <;> simp [GetPollFd, h]
  · intro c h
    simp [GetPollFd, h]

theorem claim_C2_pollset_witness :
    MachinePollFds mW =
      mW.interruptFd ::
        (mW.coroutines.filter (fun c =>
          decide (c.state ≠ kCoNew ∧ c.state ≠ kCoRunning ∧ c.state ≠ kCoDead))).map
          GetPollFd ∧
    GetPollFd cW0 = cW0.eventFd :=
  ⟨(claim_C2_pollset mW).1, (claim_C2_pollset mW).2.1 cW0 (Or.inr (by decide))⟩

/-- Claim C7: `Wait(c, fd, mask)` sets the state to `kCoWaiting`, stores
`(fd, mask)` in the wait descriptor and the current tick in `last_tick`,
then suspends; when control returns to the coroutine (the scheduler resume
plus the code after the jump), its state is `kCoRunning` and the wait
descriptor is cleared (`fd = -1`). -/
theorem claim_C7_wait (m : CoroutineMachine) (i : Nat) (fd mask : Int)
    (c : Coroutine) (h : getCo m i = some c) :
    getCo (CoroutineWait m i fd mask) i =
      some { c with state := kCoWaiting, waitFd := ⟨fd, mask⟩,
                    lastTick := m.tickCount } ∧
    (∀ m2 k, getCo m2 i = some k → k.state = kCoWaiting →
      getCo (CoroutineWaitReturn (ResumeTransition m2 i) i) i =
        some { k with state := kCoRunning,
                      waitFd := { k.waitFd with fd := -1 } }) := by
  constructor
  · rw [CoroutineWait, getCo_updateCo_self m i _ (by intro d; rfl), h]
    rfl
  · intro m2 k hk hstate
    rw [CoroutineWaitReturn,
        getCo_updateCo_self _ i _ (by intro d; rfl),
        ResumeTransition,
        getCo_updateCo_self _ i _ ?hfid, hk]
    case hfid =>
      intro d
      split <;> rfl
    simp only [Option.map_some']
    rw [if_pos (Or.inr hstate)]

theorem claim_C7_wait_witness :
    getCo (CoroutineWait mW 0 9 1) 0 =
      some { cW0 with state := kCoWaiting, waitFd := ⟨9, 1⟩, lastTick := 4 } ∧
    getCo (CoroutineWaitReturn (ResumeTransition mWaiting 0) 0) 0 =
      some { cWaiting with state := kCoRunning,
                           waitFd := { cWaiting.waitFd with fd := -1 } } :=
  ⟨((claim_C7_wait mW 0 9 1 cW0 (by decide)).1).trans (by decide),
   (claim_C7_wait mW 0 9 1 cW0 (by decide)).2 mWaiting cWaiting (by decide)
     (by decide)⟩

/-- Claim C6: `Yield` signals the own event descriptor of the yielding
coroutine before transferring control (the record it leaves behind is
`kCoYielded` with the event triggered), whereas `YieldValue` leaves the own
event descriptor untouched, so the coroutine becomes ready again only when
a caller performs another `Call`.  The hypothesis that the caller field does
not name the yielding coroutine itself always holds at a `YieldValue` call
site: `CoroutineCall` clears the callee caller field before the caller
executes anything else, so a coroutine is never its own registered caller
while it runs. -/
theorem claim_C6_yield_signalling (m : CoroutineMachine) (i : Nat)
    (v : Nat) (c : Coroutine) (h : getCo m i = some c) :
    getCo (CoroutineYield m i) i =
      some { c with state := kCoYielded, lastTick := m.tickCount,
                    eventTriggered := true } ∧
    (c.caller ≠ some i →
      getCo (CoroutineYieldValue m i v) i =
        some { c with state := kCoYielded, lastTick := m.tickCount }) := by
  constructor
  · rw [CoroutineYield, getCo_updateCo_self m i _ (by intro d; rfl), h]
    rfl
  · intro hcal
    simp only [CoroutineYieldValue, h]
    have hmem : ∀ x : List Nat, getCo { m with mem := x } i = getCo m i :=
      fun _ => rfl
    rcases hres : c.result with _ | dest <;>
      rcases hcalr : c.caller with _ | cal <;>
        simp only [hres, hcalr]
    · rw [getCo_updateCo_self _ i _ (by intro d; rfl), h]
      simp [hres, hcalr]
    · have hne : cal ≠ i := by
        intro he
        rw [hcalr, he] at hcal
        exact hcal rfl
      rw [getCo_updateCo_self _ i _ (by intro d; rfl), CoroutineTriggerEvent,
          getCo_updateCo_ne _ cal i _ (by intro d; rfl) hne, h]
      simp [hres, hcalr]
    · rw [getCo_updateCo_self _ i _ (by intro d; rfl), hmem, h]
      simp [hres, hcalr]
    · have hne : cal ≠ i := by
        intro he
        rw [hcalr, he] at hcal
        exact hcal rfl
      rw [getCo_updateCo_self _ i _ (by intro d; rfl), CoroutineTriggerEvent,
          getCo_updateCo_ne _ cal i _ (by intro d; rfl) hne, hmem, h]
      simp [hres, hcalr]

theorem claim_C6_yield_signalling_witness :
    getCo (CoroutineYield mW 0) 0 =
      some { cW0 with state := kCoYielded, lastTick := 4,
                      eventTriggered := true } ∧
    getCo (CoroutineYieldValue mW 0 0) 0 =
      some { cW0 with state := kCoYielded, lastTick := 4 } :=
  ⟨((claim_C6_yield_signalling mW 0 0 cW0 (by decide)).1).trans (by decide),
   ((claim_C6_yield_signalling mW 0 0 cW0 (by decide)).2 (by decide)).trans
     (by decide)⟩

/-- Claim C8 counterexample: the scheduler does not distinguish EINTR from
other poll errors and does not retry the poll within the call.  On the
outcome stream starting with an EINTR failure (errno 4) the call consumes
the error and produces no runnable, while the same stream without the
leading error selects coroutine 7 — so the EINTR failure is not retried
transparently, contradicting the claim. -/
theorem claim_C8_cex :
    (GetRunnableFromStream mRdy [.pollErr 4, .pollOk []]).1 = none ∧
    (GetRunnableFromStream mRdy [.pollOk []]).1 = some 7 := by
  constructor
  · rfl
  · decide

/-- Claim C8 (amended): every poll failure, EINTR included, is handled
uniformly: `GetRunnableCoroutine` produces no runnable for the tick, does
not increment `tick_count`, the outcome does not depend on the errno value,
and the next iteration of the run loop retries the poll. -/
theorem claim_C8_poll_error_uniform :
    (∀ (m : CoroutineMachine) (e : Int),
      GetRunnableCoroutine m (.pollErr e) = (none, builtMachine m) ∧
      ((GetRunnableCoroutine m (.pollErr e)).2).tickCount = m.tickCount) ∧
    (∀ (m : CoroutineMachine) (e1 e2 : Int),
      GetRunnableCoroutine m (.pollErr e1) = GetRunnableCoroutine m (.pollErr e2)) ∧
    (∀ (resumeF : Nat → CoroutineMachine → ResumeOutcome) (fuel : Nat)
        (m : CoroutineMachine) (e : Int) (rest : List PollOutcome),
      runLoop resumeF (fuel + 1) false m (.pollErr e :: rest) =
        runLoop resumeF fuel true (builtMachine m) rest) := by
  refine ⟨fun m e => ⟨rfl, rfl⟩, fun m e1 e2 => rfl, fun resumeF fuel m e rest => ?_⟩
  simp [runLoop, GetRunnableCoroutine]

/-- Claim C5: `Stop` clears the running flag and triggers the interrupt
descriptor; a tick that observes the fired interrupt with the running flag
clear produces no runnable; the run loop, whenever it returns, returns with
the running flag clear or the live set empty; and at the loop top a cleared
running flag or an empty live set makes the loop return at once. -/
theorem claim_C5_run_stop :
    (∀ m : CoroutineMachine, (CoroutineMachineStop m).running = false ∧
      (CoroutineMachineStop m).interruptTriggered = true) ∧
    (∀ (m : CoroutineMachine) (w : List Nat), m.interruptTriggered = true →
      m.running = false → (GetRunnableCoroutine m (.pollOk w)).1 = none) ∧
    (∀ (resumeF : Nat → CoroutineMachine → ResumeOutcome) (fuel : Nat)
        (phase : Bool) (m m' : CoroutineMachine) (outs : List PollOutcome),
      runLoop resumeF fuel phase m outs = some m' →
      m'.running = false ∨ m'.coroutines.length = 0) ∧
    (∀ (resumeF : Nat → CoroutineMachine → ResumeOutcome) (fuel : Nat)
        (m : CoroutineMachine) (outs : List PollOutcome),
      m.running = false ∨ m.coroutines.length = 0 →
      runLoop resumeF (fuel + 1) true m outs = some m) := by
  refine ⟨fun m => ⟨rfl, rfl⟩, ?_, ?_, ?_⟩
  · intro m w hi hr
    have hlen : ¬ ((if (builtMachine m).interruptTriggered then 1 else 0) +
        (runnablesOf m w).length = 0) := by
      have hb : (builtMachine m).interruptTriggered = true := hi
      rw [hb]
      simp
    simp only [GetRunnableCoroutine, if_neg hlen]
    have hrun : (postPollMachine m).running = false := by
      rw [postPoll_running]; exact hr
    rw [if_pos hrun]
  · intro resumeF fuel
    induction fuel with
    | zero =>
      intro phase m m' outs h
      simp [runLoop] at h
    | succ n ih =>
      intro phase m m' outs h
      cases phase with
      | true =>
        simp only [runLoop] at h
        by_cases h1 : m.running = false
        · rw [if_pos h1] at h
          obtain rfl := Option.some.inj h
          exact Or.inl h1
        · rw [if_neg h1] at h
          by_cases h2 : m.coroutines.length = 0
          · rw [if_pos h2] at h
            obtain rfl := Option.some.inj h
            exact Or.inr h2
          · rw [if_neg h2] at h
            exact ih false m m' outs h
      | false =>
        cases outs with
        | nil => simp [runLoop] at h
        | cons o rest =>
          simp only [runLoop] at h
          rcases hg : GetRunnableCoroutine m o with ⟨r, m1⟩
          rw [hg] at h
          cases r with
          | none => exact ih true m1 m' rest h
          | some i =>
            dsimp only at h
            rcases hres : resumeF i m1 with m2 | m2 <;> rw [hres] at h
            · exact ih false m2 m' rest h
            · exact ih true m2 m' rest h
  · intro resumeF fuel m outs h
    rcases h with h | h
    · simp [runLoop, h]
    · simp only [runLoop]
      by_cases h1 : m.running = false
      · rw [if_pos h1]
      · rw [if_neg h1, if_pos h]

theorem claim_C5_run_stop_witness :
    (CoroutineMachineStop mW).running = false ∧
    (GetRunnableCoroutine (CoroutineMachineStop mW) (.pollOk [])).1 = none ∧
    ((runLoop (fun _ m => .returned m) 1 true (CoroutineMachineStop mW) [] =
        some (CoroutineMachineStop mW)) ∧
      ((CoroutineMachineStop mW).running = false ∨
        (CoroutineMachineStop mW).coroutines.length = 0)) :=
  ⟨(claim_C5_run_stop.1 (mW)).1,
   claim_C5_run_stop.2.1 (CoroutineMachineStop mW) [] (by decide) (by decide),
   claim_C5_run_stop.2.2.2 (fun _ m => .returned m) 0 (CoroutineMachineStop mW)
     [] (Or.inl (by decide)),
   claim_C5_run_stop.2.2.1 (fun _ m => .returned m) 1 true
     (CoroutineMachineStop mW) (CoroutineMachineStop mW) []
     (claim_C5_run_stop.2.2.2 (fun _ m => .returned m) 0
       (CoroutineMachineStop mW) [] (Or.inl (by decide)))⟩

/-- Claim C4: a coroutine identifier enters the machine id-bitset at
creation (identifier allocation inserts it before the coroutine is appended
to the live list), leaves it exactly when the coroutine is removed from the
live set, no other core operation touches the id-bitset, and `IsAlive`
returns exactly the membership of the queried identifier in the id-bitset. -/
theorem claim_C4_id_bitset_lifetime :
    (∀ (m : CoroutineMachine) (efd : Int) (sz : Nat),
      BitSetContains ((CoroutineInitWithStackSize m efd sz).1).coroutineIds
        ((CoroutineInitWithStackSize m efd sz).2) = true ∧
      ((CoroutineInitWithStackSize m efd sz).1).coroutines.map (fun c => c.id) =
        m.coroutines.map (fun c => c.id) ++
          [(CoroutineInitWithStackSize m efd sz).2]) ∧
    (∀ (m : CoroutineMachine) (i : Nat) (cs : List Coroutine),
      removeFirst m.coroutines i = some cs →
      BitSetContains (CoroutineMachineRemoveCoroutine m i).coroutineIds i =
        false ∧
      (CoroutineMachineRemoveCoroutine m i).coroutines = cs) ∧
    (∀ (m : CoroutineMachine) (q : Nat),
      CoroutineIsAlive m q = BitSetContains m.coroutineIds q) ∧
    (∀ (m : CoroutineMachine) (i a b v n : Nat) (fd mask : Int)
        (ra : Option Nat) (o : PollOutcome),
      (CoroutineYield m i).coroutineIds = m.coroutineIds ∧
      (CoroutineYieldValue m i v).coroutineIds = m.coroutineIds ∧
      (CoroutineWait m i fd mask).coroutineIds = m.coroutineIds ∧
      (CoroutineWaitReturn m i).coroutineIds = m.coroutineIds ∧
      (CoroutineCall m a b ra n).coroutineIds = m.coroutineIds ∧
      (CoroutineCallReturn m i).coroutineIds = m.coroutineIds ∧
      (CoroutineTriggerEvent m i).coroutineIds = m.coroutineIds ∧
      (CoroutineClearEvent m i).coroutineIds = m.coroutineIds ∧
      (ResumeTransition m i).coroutineIds = m.coroutineIds ∧
      ((GetRunnableCoroutine m o).2).coroutineIds = m.coroutineIds) := by
  refine ⟨?_, ?_, fun m q => rfl, ?_⟩
  · intro m efd sz
    rcases h : BitSetFindFirstClear m.coroutineIds with _ | i <;>
      simp [CoroutineInitWithStackSize, CoroutineMachineAllocateId, h,
        bitSetContains_insert_self]
  · intro m i cs h
    simp [CoroutineMachineRemoveCoroutine, h, bitSetContains_remove_self]
  · intro m i a b v n fd mask ra o
    have hqv : (CoroutineYieldValue m i v).coroutineIds = m.coroutineIds := by
      simp only [CoroutineYieldValue]
      split
      · rfl
      · split <;> split <;> rfl
    have hcall : (CoroutineCall m a b ra n).coroutineIds = m.coroutineIds := by
      simp only [CoroutineCall]
      split
      · rfl
      · split <;> rfl
    have hget : ((GetRunnableCoroutine m o).2).coroutineIds = m.coroutineIds := by
      rcases o with e | w
      · rfl
      · simp only [GetRunnableCoroutine]
        by_cases h0 : (if (builtMachine m).interruptTriggered then 1 else 0) +
            (runnablesOf m w).length = 0
        · rw [if_pos h0]; rfl
        · rw [if_neg h0]
          have hpp : (postPollMachine m).coroutineIds = m.coroutineIds := by
            simp only [postPollMachine]
            split <;> rfl
          by_cases h1 : (postPollMachine m).running = false
          · rw [if_pos h1]; exact hpp
          · rw [if_neg h1]
            by_cases h2 : (runnablesOf m w).length = 0
            · rw [if_pos h2]; exact hpp
            · rw [if_neg h2]
              rcases qsortStable _ (runnablesOf m w) with _ | ⟨ch, t⟩
              · exact hpp
              · exact hpp
    exact ⟨rfl, hqv, rfl, rfl, hcall, rfl, rfl, rfl, rfl, hget⟩

theorem claim_C4_id_bitset_lifetime_witness :
    BitSetContains ((CoroutineInitWithStackSize mW 6 8192).1).coroutineIds
      ((CoroutineInitWithStackSize mW 6 8192).2) = true ∧
    BitSetContains
      (CoroutineMachineRemoveCoroutine mW 0).coroutineIds 0 = false ∧
    CoroutineIsAlive mW 1 = BitSetContains mW.coroutineIds 1 :=
  ⟨(claim_C4_id_bitset_lifetime.1 mW 6 8192).1,
   (claim_C4_id_bitset_lifetime.2.1 mW 0 [cW1] (by decide)).1,
   claim_C4_id_bitset_lifetime.2.2.1 mW 1⟩

/-- Claim C9: identifier allocation returns the smallest identifier whose
bit is clear when one exists within the allocated bitset range, otherwise
the value of `next_coroutine_id` (which is then incremented); the returned
identifier is inserted into the id-bitset before the call returns; and an
identifier just removed from the bitset makes the very next allocation
return an identifier no larger than it, so a released identifier is
immediately eligible for reuse. -/
theorem claim_C9_allocate_id :
    (∀ (m : CoroutineMachine) (i : Nat),
      BitSetFindFirstClear m.coroutineIds = some i →
      (CoroutineMachineAllocateId m).1 = i ∧
      BitSetContains m.coroutineIds i = false ∧
      (∀ j, j < i → BitSetContains m.coroutineIds j = true)) ∧
    (∀ m : CoroutineMachine, BitSetFindFirstClear m.coroutineIds = none →
      (CoroutineMachineAllocateId m).1 = m.nextCoroutineId ∧
      ((CoroutineMachineAllocateId m).2).nextCoroutineId =
        m.nextCoroutineId + 1) ∧
    (∀ m : CoroutineMachine,
      BitSetContains ((CoroutineMachineAllocateId m).2).coroutineIds
        ((CoroutineMachineAllocateId m).1) = true) ∧
    (∀ (m : CoroutineMachine) (i : Nat),
      (CoroutineMachineAllocateId
        { m with coroutineIds := BitSetRemove m.coroutineIds i }).1 ≤ i) := by
  refine ⟨?_, ?_, ?_, ?_⟩
  · intro m i h
    obtain ⟨h1, _, _, h4⟩ := findFirstClearAux_some m.coroutineIds _ 0 i h
    refine ⟨by simp [CoroutineMachineAllocateId, h], h1, ?_⟩
    intro j hj
    exact h4 j (Nat.zero_le _) hj
  · intro m h
    simp [CoroutineMachineAllocateId, h]
  · intro m
    rcases h : BitSetFindFirstClear m.coroutineIds with _ | i <;>
      simp [CoroutineMachineAllocateId, h, bitSetContains_insert_self]
  · intro m i
    set s := BitSetRemove m.coroutineIds i with hs
    have hclear : BitSetContains s i = false := bitSetContains_remove_self _ _
    have hrange : i < 32 * s.value.length := by
      have := bitSetRemove_length m.coroutineIds i
      rw [← hs] at this
      omega
    rcases h : BitSetFindFirstClear s with _ | j
    · exfalso
      have := findFirstClearAux_none s _ 0 h i (Nat.zero_le _) (by omega)
      rw [hclear] at this
      exact Bool.false_ne_true this
    · obtain ⟨h1, _, _, h4⟩ := findFirstClearAux_some s _ 0 j h
      have hji : j ≤ i := by
        by_contra hc
        have := h4 i (Nat.zero_le _) (by omega)
        rw [hclear] at this
        exact Bool.false_ne_true this
      have : (CoroutineMachineAllocateId { m with coroutineIds := s }).1 = j := by
        simp [CoroutineMachineAllocateId, h]
      rw [this]
      exact hji

theorem claim_C9_allocate_id_witness :
    (CoroutineMachineAllocateId mW).1 = 2 ∧
    BitSetContains ((CoroutineMachineAllocateId mW).2).coroutineIds
      ((CoroutineMachineAllocateId mW).1) = true ∧
    (CoroutineMachineAllocateId
      { mW with coroutineIds := BitSetRemove mW.coroutineIds 0 }).1 ≤ 0 :=
  ⟨(claim_C9_allocate_id.1 mW 2 (by decide)).1,
   claim_C9_allocate_id.2.2.1 mW,
   claim_C9_allocate_id.2.2.2 mW 0⟩

theorem buildVisit_id (c : Coroutine) : (buildVisit c).id = c.id := by
  simp only [buildVisit]
  split <;> rfl

theorem getRunnable_some_mem (m : CoroutineMachine) (w : List Nat) (i : Nat)
    (h : (GetRunnableCoroutine m (.pollOk w)).1 = some i) :
    ∃ c ∈ runnablesOf m w, c.id = i := by
  simp only [GetRunnableCoroutine] at h
  by_cases h0 : (if (builtMachine m).interruptTriggered then 1 else 0) +
      (runnablesOf m w).length = 0
  · rw [if_pos h0] at h
    exact absurd h (by simp)
  · rw [if_neg h0] at h
    by_cases h1 : (postPollMachine m).running = false
    · rw [if_pos h1] at h
      exact absurd h (by simp)
    · rw [if_neg h1] at h
      by_cases h2 : (runnablesOf m w).length = 0
      · rw [if_pos h2] at h
        exact absurd h (by simp)
      · rw [if_neg h2] at h
        rcases hq : qsortStable (fun a b => CompareTick (m.tickCount + 1) a b ≤ 0)
            (runnablesOf m w) with _ | ⟨ch, t⟩
        · rw [hq] at h
          exact absurd h (by simp)
        · rw [hq] at h
          dsimp only at h
          refine ⟨ch, ?_, Option.some.inj h⟩
          exact mem_qsortStable _ ch _ (hq ▸ List.mem_cons_self ch t)

/-- Claim C3: the `Call` / `YieldValue` rendezvous.  After `Call(a, b)` the
caller is suspended `kCoYielded` with its event descriptor state untouched
and the callee carries the caller identifier and the result slot;
`YieldValue` copies `result_size` bytes into the registered result slot and
triggers the caller event descriptor in the same primitive, and drops the
value (memory untouched) when no `Call` registered a slot; a disjoint copy
moves exactly the source bytes; and the scheduler never returns a
`kCoYielded` coroutine whose event descriptor is not triggered — so the copy
and the signal both happen strictly before the caller can be resumed. -/
theorem claim_C3_rendezvous :
    (∀ (m : CoroutineMachine) (a b n : Nat) (ra : Option Nat)
        (ca cb : Coroutine),
      a ≠ b → getCo m a = some ca → getCo m b = some cb →
      getCo (CoroutineCall m a b ra n) a =
        some { ca with state := kCoYielded, lastTick := m.tickCount } ∧
      ∃ kb, getCo (CoroutineCall m a b ra n) b = some kb ∧
        kb.caller = some a ∧ kb.result = ra ∧ kb.resultSize = n) ∧
    (∀ (m : CoroutineMachine) (i v : Nat) (c : Coroutine), getCo m i = some c →
      (∀ dest, c.result = some dest →
        (CoroutineYieldValue m i v).mem = memcpyBytes m.mem dest v c.resultSize) ∧
      (c.result = none → (CoroutineYieldValue m i v).mem = m.mem) ∧
      (∀ cal, c.caller = some cal → cal ≠ i →
        getCo (CoroutineYieldValue m i v) cal =
          Option.map (fun k => { k with eventTriggered := true })
            (getCo m cal))) ∧
    (∀ (mem : List Nat) (dest src n i : Nat), i < n → dest + n ≤ mem.length →
      (src + n ≤ dest ∨ dest + n ≤ src) →
      (memcpyBytes mem dest src n).getD (dest + i) 0 =
        mem.getD (src + i) 0) ∧
    (∀ (m : CoroutineMachine) (w : List Nat) (aId : Nat),
      (∀ c ∈ m.coroutines, c.id = aId →
        c.state = kCoYielded ∧ c.eventTriggered = false) →
      (GetRunnableCoroutine m (.pollOk w)).1 ≠ some aId) := by
  refine ⟨?_, ?_, ?_, ?_⟩
  · intro m a b n ra ca cb hab hca hcb
    have hk : getCo (updateCo m b (fun k =>
        { k with caller := some a, result := ra, resultSize := n })) b =
        some { cb with caller := some a, result := ra, resultSize := n } := by
      rw [getCo_updateCo_self _ b _ (by intro d; rfl), hcb]
      rfl
    have hm1a : getCo (updateCo m b (fun k =>
        { k with caller := some a, result := ra, resultSize := n })) a =
        some ca := by
      rw [getCo_updateCo_ne _ b a _ (by intro d; rfl) (Ne.symm hab)]
      exact hca
    constructor
    · simp only [CoroutineCall, hk]
      rw [getCo_updateCo_self _ a _ (by intro d; rfl)]
      by_cases hnew : cb.state = kCoNew
      · rw [if_pos hnew, getCo_updateCo_ne _ b a _ ?hsid (Ne.symm hab), hm1a]
        case hsid =>
          intro d
          simp only [CoroutineStart]
          split <;> rfl
        rfl
      · rw [if_neg hnew, CoroutineTriggerEvent,
            getCo_updateCo_ne _ b a _ (by intro d; rfl) (Ne.symm hab), hm1a]
        rfl
    · simp only [CoroutineCall, hk]
      rw [getCo_updateCo_ne _ a b _ (by intro d; rfl) hab]
      by_cases hnew : cb.state = kCoNew
      · rw [if_pos hnew, getCo_updateCo_self _ b _ ?hsid2, hk]
        case hsid2 =>
          intro d
          simp only [CoroutineStart]
          split <;> rfl
        refine ⟨CoroutineStart { cb with
          caller := some a,
          result := ra,
          resultSize := n }, rfl, ?_, ?_, ?_⟩
        · simp only [CoroutineStart]
          split <;> rfl
        · simp only [CoroutineStart]
          split <;> rfl
        · simp only [CoroutineStart]
          split <;> rfl
      · rw [if_neg hnew, CoroutineTriggerEvent,
            getCo_updateCo_self _ b _ (by intro d; rfl), hk]
        exact ⟨_, rfl, rfl, rfl, rfl⟩
  · intro m i v c h
    refine ⟨?_, ?_, ?_⟩
    · intro dest hres
      simp only [CoroutineYieldValue, h, hres]
      rcases hcalr : c.caller with _ | cal <;> simp only [hcalr] <;> rfl
    · intro hres
      simp only [CoroutineYieldValue, h, hres]
      rcases hcalr : c.caller with _ | cal <;> simp only [hcalr] <;> rfl
    · intro cal hcalr hne
      simp only [CoroutineYieldValue, h, hcalr]
      rcases hres : c.result with _ | dest <;> simp only [hres]
      · rw [getCo_updateCo_ne _ i cal _ (by intro d; rfl) (Ne.symm hne),
            CoroutineTriggerEvent, getCo_updateCo_self _ cal _ (by intro d; rfl)]
      · rw [getCo_updateCo_ne _ i cal _ (by intro d; rfl) (Ne.symm hne),
            CoroutineTriggerEvent, getCo_updateCo_self _ cal _ (by intro d; rfl)]
        rfl
  · intro mem dest src n i h1 h2 h3
    exact memcpyBytes_copies mem dest src n i h1 h2 h3
  · intro m w aId hinv h
    obtain ⟨c, hcR, hcid⟩ := getRunnable_some_mem m w aId h
    have hcb : c ∈ (buildLoop m.coroutines).2.2 ∧ pollReady w c = true := by
      simpa [runnablesOf, List.mem_filter] using hcR
    obtain ⟨d, hd, hdskip, hdval⟩ := buildLoop_blocked_mem m.coroutines c hcb.1
    have hdid : d.id = aId := by
      rw [← hcid, hdval, buildVisit_id]
    obtain ⟨hstate, htrig⟩ := hinv d hd hdid
    have hbv : buildVisit d = d := by
      simp [buildVisit, hstate]
    rw [hbv] at hdval
    subst hdval
    have hpr : pollReady w c = false := by
      simp [pollReady, hstate, htrig]
    rw [hpr] at hcb
    exact Bool.false_ne_true hcb.2

theorem claim_C3_rendezvous_witness :
    getCo (CoroutineCall mW 0 1 (some 0) 2) 0 =
      some { cW0 with state := kCoYielded, lastTick := 4 } ∧
    (CoroutineYieldValue mCall 1 2).mem = memcpyBytes mCall.mem 0 2 2 ∧
    (CoroutineYieldValue mCall 1 2).mem = [5, 6, 5, 6] ∧
    (memcpyBytes mCall.mem 0 2 2).getD (0 + 0) 0 = mCall.mem.getD (2 + 0) 0 ∧
    (GetRunnableCoroutine mCall (.pollOk [])).1 ≠ some 0 :=
  ⟨((claim_C3_rendezvous.1 mW 0 1 2 (some 0) cW0 cW1 (by decide) (by decide)
      (by decide)).1).trans (by decide),
   ((claim_C3_rendezvous.2.1 mCall 1 2 cCallee (by decide)).1 0 (by decide)),
   ((claim_C3_rendezvous.2.1 mCall 1 2 cCallee (by decide)).1 0
     (by decide)).trans (by decide),
   claim_C3_rendezvous.2.2.1 mCall.mem 0 2 2 0 (by decide) (by decide)
     (Or.inr (by decide)),
   claim_C3_rendezvous.2.2.2 mCall [] 0 (by decide)⟩

theorem getRunnable_ok_chosen (m : CoroutineMachine) (w : List Nat)
    (hrun : m.running = true) (hne : runnablesOf m w ≠ [])
    (ch : Coroutine) (t : List Coroutine)
    (hq : qsortStable
      (fun a b => decide (CompareTick (m.tickCount + 1) a b ≤ 0))
      (runnablesOf m w) = ch :: t) :
    GetRunnableCoroutine m (.pollOk w) =
      (some ch.id, CoroutineClearEvent (postPollMachine m) ch.id) := by
  have hlen : ¬ ((runnablesOf m w).length = 0) := by
    simpa [List.length_eq_zero] using hne
  have h0 : ¬ ((if (builtMachine m).interruptTriggered then 1 else 0) +
      (runnablesOf m w).length = 0) := by
    intro hcon
    refine hlen ?_
    by_cases hI : (builtMachine m).interruptTriggered
    · rw [if_pos hI] at hcon
      omega
    · rw [if_neg hI] at hcon
      omega
  have hrun3 : ¬ ((postPollMachine m).running = false) := by
    rw [postPoll_running, hrun]
    simp
  simp only [GetRunnableCoroutine, if_neg h0, if_neg hrun3, if_neg hlen, hq]

/-- Claim C1 (amended): on a tick whose poll reports at least one coroutine
ready, and in which the stalenesses of every two poll-ready coroutines
differ by less than `2 ^ 31` (within that window the `(int)` cast in
`CompareTick` is faithful; the counterexample shows the claim fails beyond
it), `GetRunnableCoroutine` returns a ready coroutine of greatest staleness
and clears its event descriptor before returning.  The original claim also
promised an insertion-order tie break; that clause is dropped, not proved:
libc `qsort` leaves the relative order of comparator-equal elements
unspecified, so among equally stale ready coroutines the choice is not a
property of the program.  Accordingly this proof uses only the properties
every conforming `qsort` guarantees — the output is, elementwise, the input
(`mem_qsortStable`, `mem_qsortStable_of_mem`) and is ordered consistently
with the comparator (`qsortStable_keySorted`, which under the staleness
window means descending staleness, so the head is staleness-maximal by
`keySorted_head_max`). -/
theorem claim_C1_fair_selection (m : CoroutineMachine) (w : List Nat)
    (hrun : m.running = true) (hne : runnablesOf m w ≠ [])
    (hT : m.tickCount + 1 < 2 ^ 64)
    (hlast : ∀ c ∈ runnablesOf m w, c.lastTick ≤ m.tickCount)
    (hdiff : ∀ a ∈ runnablesOf m w, ∀ b ∈ runnablesOf m w,
      Staleness (m.tickCount + 1) a - Staleness (m.tickCount + 1) b < 2 ^ 31) :
    ∃ c, c ∈ runnablesOf m w ∧
      (GetRunnableCoroutine m (.pollOk w)).1 = some c.id ∧
      (∀ x ∈ runnablesOf m w,
        Staleness (m.tickCount + 1) x ≤ Staleness (m.tickCount + 1) c) ∧
      (∀ k ∈ ((GetRunnableCoroutine m (.pollOk w)).2).coroutines,
        k.id = c.id → k.eventTriggered = false) := by
  have hle : ∀ a ∈ runnablesOf m w, ∀ b ∈ runnablesOf m w,
      ((fun a b => decide (CompareTick (m.tickCount + 1) a b ≤ 0)) a b = true ↔
        Staleness (m.tickCount + 1) b ≤ Staleness (m.tickCount + 1) a) := by
    intro a ha b hb
    simp only [decide_eq_true_eq]
    exact compareTick_le_iff (m.tickCount + 1) a b
      (by have := hlast a ha; omega) (by have := hlast b hb; omega) hT
      (hdiff a ha b hb) (hdiff b hb a ha)
  rcases hq : qsortStable
      (fun a b => decide (CompareTick (m.tickCount + 1) a b ≤ 0))
      (runnablesOf m w) with _ | ⟨c, t⟩
  · exfalso
    rcases List.exists_mem_of_ne_nil _ hne with ⟨x, hx⟩
    have := mem_qsortStable_of_mem
      (fun a b => decide (CompareTick (m.tickCount + 1) a b ≤ 0)) x _ hx
    rw [hq] at this
    simp at this
  · have hmem : c ∈ runnablesOf m w :=
      mem_qsortStable _ c _ (hq ▸ List.mem_cons_self c t)
    have hsorted : KeySorted (Staleness (m.tickCount + 1)) (c :: t) :=
      hq ▸ qsortStable_keySorted (Staleness (m.tickCount + 1)) _ _ hle
    have hmax : ∀ x ∈ runnablesOf m w,
        Staleness (m.tickCount + 1) x ≤ Staleness (m.tickCount + 1) c := by
      intro x hx
      refine keySorted_head_max (Staleness (m.tickCount + 1)) c t hsorted x ?_
      have := mem_qsortStable_of_mem
        (fun a b => decide (CompareTick (m.tickCount + 1) a b ≤ 0)) x _ hx
      rw [hq] at this
      exact this
    have hget := getRunnable_ok_chosen m w hrun hne c t hq
    refine ⟨c, hmem, ?_, hmax, ?_⟩
    · rw [hget]
    · rw [hget]
      exact clearEvent_clears _ _

theorem claim_C1_fair_selection_witness :
    ∃ c, c ∈ runnablesOf mW [] ∧
      (GetRunnableCoroutine mW (.pollOk [])).1 = some c.id ∧
      (∀ x ∈ runnablesOf mW [],
        Staleness (mW.tickCount + 1) x ≤ Staleness (mW.tickCount + 1) c) ∧
      (∀ k ∈ ((GetRunnableCoroutine mW (.pollOk [])).2).coroutines,
        k.id = c.id → k.eventTriggered = false) :=
  claim_C1_fair_selection mW [] (by decide) (by decide) (by decide)
    (by decide) (by decide)

/-- Claim C1 counterexample: at tick count `2 ^ 31 + 1` the staleness
difference between the two ready coroutines is `2 ^ 31 + 1`, and the `(int)`
cast in `CompareTick` truncates it so that the comparator — consistently in
both argument orders, so for every sort that respects the comparator, not
only this refinement — places coroutine 0 (staleness 1) strictly before
coroutine 1 (staleness `2 ^ 31 + 2`), and the scheduler returns coroutine 0
rather than the coroutine that has waited longest: the claim that the ready
coroutine with the greatest staleness is returned is false at this concrete
state. -/
theorem claim_C1_fair_selection_cex :
    (GetRunnableCoroutine mCex (.pollOk [])).1 = some cCexA.id ∧
    cCexA ∈ runnablesOf mCex [] ∧ cCexB ∈ runnablesOf mCex [] ∧
    cCexA.id ≠ cCexB.id ∧
    Staleness (mCex.tickCount + 1) cCexA = 1 ∧
    Staleness (mCex.tickCount + 1) cCexB = 2 ^ 31 + 2 ∧
    CompareTick (mCex.tickCount + 1) cCexA cCexB < 0 ∧
    CompareTick (mCex.tickCount + 1) cCexB cCexA > 0 := by
  refine ⟨?_, ?_, ?_, ?_, ?_, ?_, ?_, ?_⟩ <;> decide

end Spec2Proof
